import Mathlib

set_option maxRecDepth 8000

/-!
# A shallow embedding of uroman-rs

This file embeds the parts of the uroman-rs sources (`src/lib.rs`,
`src/edge.rs`, `src/utils.rs`) needed to settle the claims about the
romanization lattice, and proves the corresponding theorems.

Modelling conventions:
* Rust `usize`/`u32` become `Nat`, `i64` becomes `Int`.
* Rust `f64` is modeled as `Rat`; the exact digit strings produced by Rust's
  float `Display`/precision formatting are rendered by executable functions on
  `Rat` that mirror the branch structure of the source (which branch is taken
  never depends on the digits themselves).
* Rust `HashMap`/`HashSet` state is modeled as total functions with a default
  value; `IndexMap<String, Vec<RomRule>>` becomes `String → List RomRule`.
* `RefCell` interior mutability (the `hangul_rom` cache) is modeled by explicit
  state passing.
* `lattice.rs` and `rom_rule.rs` are declared as modules of the crate but are
  not present in the sources at hand; definitions that depend on them are
  modelled from the specification and carry a doc comment saying so.
-/

/-! ## Edge model (src/edge.rs) -/

/-- `EdgeData` from src/edge.rs. Field `endPos` is Rust's `end` and `ty` is
Rust's `r#type` (both are Lean keywords). -/
structure EdgeData where
  start : Nat
  endPos : Nat
  txt : String
  ty : String
deriving DecidableEq, Repr

/-- `NumData` from src/edge.rs. `value`/`base_multiplier` are `Option<f64>`
(modeled as `Option Rat`), `fraction` is `Option<Ratio<i64>>` (modeled as
`Option Rat`: `num_rational` keeps ratios reduced with positive denominator,
exactly `Rat`'s invariant). -/
structure NumData where
  origTxt : String
  value : Option Rat
  fraction : Option Rat
  numBase : Option Int
  baseMultiplier : Option Rat
  script : Option String
  isLargePower : Bool
  active : Bool
  valueS : Option String
  nDecimals : Option Nat
deriving DecidableEq, Repr

/-- `NumDataUpdates` from src/edge.rs: every field optional, mimicking the
Python keyword arguments. -/
structure NumDataUpdates where
  value : Option Rat
  fraction : Option Rat
  numBase : Option Int
  baseMultiplier : Option Rat
  ty : Option String
  script : Option String
  isLargePower : Option Bool
  active : Option Bool
  nDecimals : Option Nat
  origTxt : Option String
  valueS : Option String
deriving Repr

/-- The unified `Edge` enum from src/edge.rs. -/
inductive Edge where
  | regular (data : EdgeData)
  | numeric (data : EdgeData) (numData : NumData)
deriving DecidableEq, Repr

/-- `Edge::get_data`. -/
def Edge.getData : Edge → EdgeData
  | .regular data => data
  | .numeric data _ => data

/-- `Edge::get_num_data`. -/
def Edge.getNumData : Edge → Option NumData
  | .numeric _ numData => some numData
  | _ => none

/-- Accessor `Edge::start`. -/
def Edge.start (e : Edge) : Nat := e.getData.start

/-- Accessor `Edge::end`. -/
def Edge.endPos (e : Edge) : Nat := e.getData.endPos

/-- Accessor `Edge::txt`. -/
def Edge.txt (e : Edge) : String := e.getData.txt

/-- Accessor `Edge::r#type`. -/
def Edge.ty (e : Edge) : String := e.getData.ty

/-- `Edge::is_active`: `self.get_num_data().is_none_or(|d| d.active)`. -/
def Edge.isActive (e : Edge) : Bool :=
  match e.getNumData with
  | none => true
  | some d => d.active

/-- `Edge::set_active`: mutates `active` through `get_num_data_mut`, which is
`None` for regular edges, so those are left unchanged. -/
def Edge.setActive (e : Edge) (active : Bool) : Edge :=
  match e with
  | .numeric data numData => .numeric data { numData with active := active }
  | .regular data => .regular data

/-- The `PartialEq for Edge` impl: equality on `(start, end, txt, type)` of
`get_data()` only. -/
def edgeEq (e1 e2 : Edge) : Bool :=
  e1.getData.start == e2.getData.start && e1.getData.endPos == e2.getData.endPos &&
    e1.getData.txt == e2.getData.txt && e1.getData.ty == e2.getData.ty

/-- The `Hash for Edge` impl, modeled as the stream of values fed to the
`Hasher`: `d.start`, `d.end`, `d.txt`, `d.type`, in that order. -/
def Edge.hashStream (e : Edge) : List (Nat ⊕ String) :=
  [.inl e.getData.start, .inl e.getData.endPos, .inr e.getData.txt, .inr e.getData.ty]

/-- Left-pads a digit string with zeros to width `n` (fractional digits of
fixed-point output). -/
def padZeros (s : String) (n : Nat) : String :=
  ⟨List.replicate (n - s.length) '0'⟩ ++ s

/-- Round-half-to-even of a nonnegative rational to `Nat` (the rounding used
by Rust's fixed-precision float formatting). -/
def roundHalfEvenNat (q : Rat) : Nat :=
  let f : Nat := q.floor.toNat
  let frac : Rat := q - (f : Rat)
  if frac > 1 / 2 then f + 1
  else if frac < 1 / 2 then f
  else if f % 2 = 0 then f else f + 1

/-- Rust's `format!("{:.nd$}", v)` on the `Rat` model of `f64`: sign, integer
part, and exactly `nd` fractional digits. -/
def formatFixed (v : Rat) (nd : Nat) : String :=
  let a : Rat := if v < 0 then -v else v
  let r : Nat := roundHalfEvenNat (a * (10 : Rat) ^ nd)
  let sign : String := if v < 0 then "-" else ""
  if nd = 0 then sign ++ toString r
  else sign ++ toString (r / 10 ^ nd) ++ "." ++ padZeros (toString (r % 10 ^ nd)) nd

/-- Rust's `f64::to_string` (shortest round-trip decimal) on the `Rat` model:
print with the least number of decimals that is exact, capped like the 17
significant digits of an `f64`. -/
def floatToString (v : Rat) : String :=
  match (List.range 21).find? (fun k => (v * (10 : Rat) ^ k).den == 1) with
  | some k => formatFixed v k
  | none => formatFixed v 17

/-- The body of `Edge::recalculate_numeric_txt` that computes the display
text from a `NumData` payload: `value_s` wins; otherwise `value` is formatted
(fixed-point when `n_decimals` is set, integer cast when integral, plain
decimal otherwise); a present fraction is appended as `num/den` after a single
space when the value part is nonempty. -/
def recalcTxt (nd : NumData) : String :=
  let valueS : String :=
    match nd.valueS with
    | some vs => vs
    | none =>
      match nd.value with
      | some v =>
        match nd.nDecimals with
        | some d => formatFixed v d
        | none => if v.den = 1 then toString v.num else floatToString v
      | none => ""
  let fractionS : String :=
    match nd.fraction with
    | some f => toString f.num ++ "/" ++ toString f.den
    | none => ""
  let delim : String := if valueS ≠ "" ∧ fractionS ≠ "" then " " else ""
  valueS ++ delim ++ fractionS

/-- `Edge::recalculate_numeric_txt`: recomputes `data.txt` of a numeric edge,
falling back to `orig_txt` when the computed text is empty. Regular edges are
untouched (the `if let Edge::Numeric` guard). -/
def Edge.recalculateNumericTxt (e : Edge) : Edge :=
  match e with
  | .numeric data numData =>
    let finalTxt := recalcTxt numData
    .numeric { data with txt := if finalTxt = "" then numData.origTxt else finalTxt } numData
  | .regular data => .regular data

/-- `Edge::update`: merges the optional fields of `NumDataUpdates` into the
payload of a numeric edge and then recalculates `txt`; regular edges fall
through the `if let Edge::Numeric` guard unchanged. -/
def Edge.update (e : Edge) (u : NumDataUpdates) : Edge :=
  match e with
  | .numeric data numData =>
    let numData' : NumData :=
      { origTxt := match u.origTxt with | some v => v | none => numData.origTxt
        value := match u.value with | some v => some v | none => numData.value
        fraction := match u.fraction with | some v => some v | none => numData.fraction
        numBase := match u.numBase with | some v => some v | none => numData.numBase
        baseMultiplier :=
          match u.baseMultiplier with | some v => some v | none => numData.baseMultiplier
        script := match u.script with | some v => some v | none => numData.script
        isLargePower := match u.isLargePower with | some v => v | none => numData.isLargePower
        active := match u.active with | some v => v | none => numData.active
        valueS := match u.valueS with | some v => some v | none => numData.valueS
        nDecimals := match u.nDecimals with | some v => some v | none => numData.nDecimals }
    let data' : EdgeData := { data with ty := match u.ty with | some v => v | none => data.ty }
    Edge.recalculateNumericTxt (.numeric data' numData')
  | .regular data => .regular data

/-- The claim's recomputation of a numeric edge's `txt` from its payload:
`value_s` or formatted value, plus optional `num/den`; empty result falls back
to `orig_txt`. -/
def recomputedTxt (nd : NumData) : String :=
  let t := recalcTxt nd
  if t = "" then nd.origTxt else t

/-! ## src/utils.rs: decode_unicode_escapes -/

/-- ASCII hex digit test (`[0-9a-fA-F]` of the escape regex). -/
def isHexDigit (c : Char) : Bool :=
  ('0' ≤ c && c ≤ '9') || ('a' ≤ c && c ≤ 'f') || ('A' ≤ c && c ≤ 'F')

/-- Value of one ASCII hex digit. -/
def hexDigitVal (c : Char) : Nat :=
  if '0' ≤ c ∧ c ≤ '9' then c.toNat - '0'.toNat
  else if 'a' ≤ c ∧ c ≤ 'f' then c.toNat - 'a'.toNat + 10
  else if 'A' ≤ c ∧ c ≤ 'F' then c.toNat - 'A'.toNat + 10
  else 0

/-- `u32::from_str_radix(hex, 16)` on a list of hex digits. -/
def hexListVal (cs : List Char) : Nat :=
  cs.foldl (fun acc c => 16 * acc + hexDigitVal c) 0

/-- `std::char::from_u32(v).unwrap_or(REPLACEMENT_CHARACTER)`: surrogates and
values above `0x10FFFF` give U+FFFD. -/
def charForCodepoint (v : Nat) : Char :=
  if (0xD800 ≤ v ∧ v ≤ 0xDFFF) ∨ 0x110000 ≤ v then Char.ofNat 0xFFFD else Char.ofNat v

/-- A match of the escape regex `\\(x[0-9a-fA-F]{2}|u[0-9a-fA-F]{4}|U[0-9a-fA-F]{8})`
anchored at the head of the character list: returns the codepoint value and
the length of the matched text. -/
def parseEscapeHead : List Char → Option (Nat × Nat)
  | '\\' :: c :: rest =>
    let k : Nat := if c = 'x' then 2 else if c = 'u' then 4 else if c = 'U' then 8 else 0
    if k = 0 then none
    else
      let hx := rest.take k
      if hx.length = k && hx.all isHexDigit then some (hexListVal hx, k + 2) else none
  | _ => none

/-- `HAS_ESCAPE_RE.is_match`: some position starts a match. -/
def hasEscapeMatch : List Char → Bool
  | [] => false
  | c :: cs => (parseEscapeHead (c :: cs)).isSome || hasEscapeMatch cs

/-- The `find_iter` loop of `decode_unicode_escapes`: leftmost nonoverlapping
matches; a match of value `> 0x80` is replaced by its character (or U+FFFD),
a match of value `≤ 0x80` is copied verbatim (`push_str(full_escape_sequence)`),
everything else is copied through. The fuel argument (instantiated with the
input length, an upper bound on the number of loop steps, each of which
consumes at least one character) makes the recursion structural. -/
def decodeScanF : Nat → List Char → List Char
  | 0, cs => cs
  | _ + 1, [] => []
  | fuel + 1, c :: rest =>
    match parseEscapeHead (c :: rest) with
    | some vn =>
      (if 0x80 < vn.1 then [charForCodepoint vn.1] else (c :: rest).take vn.2) ++
        decodeScanF fuel ((c :: rest).drop vn.2)
    | none => c :: decodeScanF fuel rest

/-- `decode_unicode_escapes` from src/utils.rs, including the early return
when the regex finds no match. -/
def decodeUnicodeEscapes (s : String) : String :=
  if hasEscapeMatch s.data then ⟨decodeScanF s.data.length s.data⟩ else s

/-- A segment of the input as the claim describes it: a plain character, or a
recognized escape sequence with its value and its verbatim text. -/
inductive EscSeg where
  | plain (c : Char)
  | esc (v : Nat) (raw : List Char)
deriving DecidableEq, Repr

/-- Claim-side tokenization of the input into plain characters and escape
sequences (same leftmost nonoverlapping scan as the regex). -/
def escSegmentsF : Nat → List Char → List EscSeg
  | 0, cs => cs.map .plain
  | _ + 1, [] => []
  | fuel + 1, c :: rest =>
    match parseEscapeHead (c :: rest) with
    | some vn =>
      .esc vn.1 ((c :: rest).take vn.2) :: escSegmentsF fuel ((c :: rest).drop vn.2)
    | none => .plain c :: escSegmentsF fuel rest

/-- Claim-side rendering: an escape whose value is strictly greater than
`0x80` becomes the corresponding character (U+FFFD when not a scalar value);
any other escape, and every plain character, is kept verbatim. -/
def renderSegClaim : EscSeg → List Char
  | .plain c => [c]
  | .esc v raw => if 0x80 < v then [charForCodepoint v] else raw

/-- The transformation exactly as the claim words it. -/
def decodeClaim (s : String) : String :=
  ⟨((escSegmentsF s.data.length s.data).map renderSegClaim).flatten⟩

/-! ## src/lib.rs: second_rom_filter and its regexes -/

/-- The `\s` class of the Rust `regex` crate (Unicode `White_Space`). -/
def isRegexSpace (c : Char) : Bool :=
  c = ' ' || c = '\t' || c = '\n' || c.toNat = 0x0B || c.toNat = 0x0C || c = '\r' ||
    c.toNat = 0x85 || c.toNat = 0xA0 || c.toNat = 0x1680 ||
    (0x2000 ≤ c.toNat && c.toNat ≤ 0x200A) ||
    c.toNat = 0x2028 || c.toNat = 0x2029 || c.toNat = 0x202F || c.toNat = 0x205F ||
    c.toNat = 0x3000

/-- The `\d` class of the Rust `regex` crate (Unicode `Nd`), as the list of
codepoint ranges of general category `Nd`. -/
def ndRanges : List (Nat × Nat) :=
  [(0x30, 0x39), (0x660, 0x669), (0x6F0, 0x6F9), (0x7C0, 0x7C9), (0x966, 0x96F),
   (0x9E6, 0x9EF), (0xA66, 0xA6F), (0xAE6, 0xAEF), (0xB66, 0xB6F), (0xBE6, 0xBEF),
   (0xC66, 0xC6F), (0xCE6, 0xCEF), (0xD66, 0xD6F), (0xDE6, 0xDEF), (0xE50, 0xE59),
   (0xED0, 0xED9), (0xF20, 0xF29), (0x1040, 0x1049), (0x1090, 0x1099), (0x17E0, 0x17E9),
   (0x1810, 0x1819), (0x1946, 0x194F), (0x19D0, 0x19D9), (0x1A80, 0x1A89),
   (0x1A90, 0x1A99), (0x1B50, 0x1B59), (0x1BB0, 0x1BB9), (0x1C40, 0x1C49),
   (0x1C50, 0x1C59), (0xA620, 0xA629), (0xA8D0, 0xA8D9), (0xA900, 0xA909),
   (0xA9D0, 0xA9D9), (0xA9F0, 0xA9F9), (0xAA50, 0xAA59), (0xABF0, 0xABF9),
   (0xFF10, 0xFF19), (0x104A0, 0x104A9), (0x10D30, 0x10D39), (0x11066, 0x1106F),
   (0x110F0, 0x110F9), (0x11136, 0x1113F), (0x111D0, 0x111D9), (0x112F0, 0x112F9),
   (0x11450, 0x11459), (0x114D0, 0x114D9), (0x11650, 0x11659), (0x116C0, 0x116C9),
   (0x11730, 0x11739), (0x118E0, 0x118E9), (0x11950, 0x11959), (0x11C50, 0x11C59),
   (0x11D50, 0x11D59), (0x11DA0, 0x11DA9), (0x16A60, 0x16A69), (0x16AC0, 0x16AC9),
   (0x16B50, 0x16B59), (0x1D7CE, 0x1D7FF), (0x1E140, 0x1E149), (0x1E2F0, 0x1E2F9),
   (0x1E950, 0x1E959), (0x1FBF0, 0x1FBF9)]

/-- `c` matches the regex class `\d`. -/
def isRegexDigit (c : Char) : Bool :=
  ndRanges.any (fun r => r.1 ≤ c.toNat && c.toNat ≤ r.2)

/-- The suffix pattern `\s+(\S+)\s*$` shared by `KAYAH_RE` and `MENDE_RE`:
at least one whitespace, then the captured nonspace run, then only whitespace
to the end of the string. The character classes make the regex backtracking
deterministic, so the greedy reading below is exact. -/
def tailCapture (cs : List Char) : Option (List Char) :=
  if (cs.takeWhile isRegexSpace).isEmpty then none
  else
    let rest := cs.dropWhile isRegexSpace
    let tok := rest.takeWhile (fun c => !(isRegexSpace c))
    if tok.isEmpty then none
    else if (rest.drop tok.length).all isRegexSpace then some tok else none

/-- A match of `KAYAH_RE = kayah\s+(\S+)\s*$` anchored at this position. -/
def matchKayahAt (cs : List Char) : Option (List Char) :=
  if "kayah".data.isPrefixOf cs then tailCapture (cs.drop 5) else none

/-- `KAYAH_RE.captures`: leftmost match, returning capture group 1. -/
def kayahCaptureList : List Char → Option (List Char)
  | [] => none
  | c :: cs =>
    match matchKayahAt (c :: cs) with
    | some tok => some tok
    | none => kayahCaptureList cs

/-- `KAYAH_RE.captures(rom)` and `cap.get(1)` on strings. -/
def kayahCapture (r : String) : Option String :=
  (kayahCaptureList r.data).map (fun cs => ⟨cs⟩)

/-- A match of `MENDE_RE = m\d+\s+(\S+)\s*$` anchored at this position. -/
def matchMendeAt (cs : List Char) : Option (List Char) :=
  match cs with
  | 'm' :: rest =>
    let ds := rest.takeWhile isRegexDigit
    if ds.isEmpty then none else tailCapture (rest.drop ds.length)
  | _ => none

/-- `MENDE_RE.captures`: leftmost match, returning capture group 1. -/
def mendeCaptureList : List Char → Option (List Char)
  | [] => none
  | c :: cs =>
    match matchMendeAt (c :: cs) with
    | some tok => some tok
    | none => mendeCaptureList cs

/-- `MENDE_RE.captures(rom)` and `cap.get(1)` on strings. -/
def mendeCapture (r : String) : Option String :=
  (mendeCaptureList r.data).map (fun cs => ⟨cs⟩)

/-- `SPACE_RE.is_match` for `\S\s+\S`: some nonspace character is followed by
at least one whitespace character and then a nonspace character. -/
def spaceReMatchList : List Char → Bool
  | [] => false
  | c :: cs =>
    (!(isRegexSpace c) && !((cs.takeWhile isRegexSpace).isEmpty) &&
        !((cs.dropWhile isRegexSpace).isEmpty)) ||
      spaceReMatchList cs

/-- `SPACE_RE.is_match(rom)` on strings. -/
def spaceReMatch (r : String) : Bool := spaceReMatchList r.data

/-- Rust `str::contains(&str)`: `needle` occurs as a contiguous substring of
`hay`. -/
def strContainsSubstr (hay needle : String) : Bool :=
  (List.range (hay.data.length + 1)).any (fun i => needle.data.isPrefixOf (hay.data.drop i))

/-- `Uroman::second_rom_filter` from src/lib.rs. `chrName` stands for
`Uroman::chr_name` (the `dict_str` name override map loaded from the data
files, falling back to the `unicode_names2` character-name database — both
external data, so the name function is a parameter). Control flow follows the
source: empty `c` returns `rom`; a `rom` without an ASCII space (`r.contains(' ')`)
returns `rom` unchanged; then the KAYAH and MENDE name/regex branches; then
the embedded-whitespace fallback to `c`; otherwise `rom` unchanged. -/
def secondRomFilter (chrName : Char → String) (c : String) (rom : Option String) :
    Option String :=
  match c.data with
  | [] => rom
  | ch :: _ =>
    match rom with
    | none => none
    | some r =>
      if r.data.contains ' ' then
        let name := chrName ch
        if strContainsSubstr name "MYANMAR VOWEL SIGN KAYAH" ∧ (kayahCapture r).isSome then
          kayahCapture r
        else if strContainsSubstr name "MENDE KIKAKUI SYLLABLE" ∧ (mendeCapture r).isSome then
          mendeCapture r
        else if spaceReMatch r then some c
        else some r
      else some r

/-- The claim's description of `second_rom_filter`, amended with the ASCII
space guard that the source applies before any rewriting. -/
def secondRomFilterClaim (chrName : Char → String) (c : String) (rom : Option String) :
    Option String :=
  match c.data, rom with
  | [], _ => rom
  | _, none => none
  | ch :: _, some r =>
    if r.data.contains ' ' = false then some r
    else if strContainsSubstr (chrName ch) "MYANMAR VOWEL SIGN KAYAH" ∧ (kayahCapture r).isSome
      then kayahCapture r
    else if strContainsSubstr (chrName ch) "MENDE KIKAKUI SYLLABLE" ∧ (mendeCapture r).isSome
      then mendeCapture r
    else if spaceReMatch r then some c
    else some r

/-! ## src/lib.rs: Hangul romanization -/

/-- `HANGUL_LEADS`: `"g gg n d dd r m b bb s ss - j jj c k t p h".split_whitespace()`. -/
def HANGUL_LEADS : List String :=
  ["g", "gg", "n", "d", "dd", "r", "m", "b", "bb", "s", "ss", "-", "j", "jj", "c", "k",
   "t", "p", "h"]

/-- `HANGUL_VOWELS`: `"a ae ya yae eo e yeo ye o wa wai oe yo u weo we wi yu eu yi i"`. -/
def HANGUL_VOWELS : List String :=
  ["a", "ae", "ya", "yae", "eo", "e", "yeo", "ye", "o", "wa", "wai", "oe", "yo", "u",
   "weo", "we", "wi", "yu", "eu", "yi", "i"]

/-- `HANGUL_TAILS`: `"- g gg gs n nj nh d l lg lm lb ls lt lp lh m b bs s ss ng j c k t p h"`. -/
def HANGUL_TAILS : List String :=
  ["-", "g", "gg", "gs", "n", "nj", "nh", "d", "l", "lg", "lm", "lb", "ls", "lt", "lp",
   "lh", "m", "b", "bs", "s", "ss", "ng", "j", "c", "k", "t", "p", "h"]

/-- `rom.replace('-', "")`: remove every placeholder dash. -/
def hangulStrip (s : String) : String :=
  ⟨s.data.filter (fun c => c ≠ '-')⟩

/-- The computing branch of `Uroman::unicode_hangul_romanization` (src/lib.rs)
on the codepoint `cp = c as u32`: inside `0xAC00..=0xD7A3` decompose into
lead/vowel/tail jamo indices and concatenate the three table entries, dashes
removed; outside the range, `None`. (Vector indexing cannot go out of bounds:
for `code ≤ 0x2BA3` the indices are `< 19`, `< 21` and `< 28`; `List.getD`
with default `""` is therefore exact.) -/
def unicodeHangulRomanization (cp : Nat) : Option String :=
  if 0xAC00 ≤ cp ∧ cp ≤ 0xD7A3 then
    let code := cp - 0xAC00
    some (hangulStrip
      (HANGUL_LEADS.getD (code / (28 * 21)) "" ++ HANGUL_VOWELS.getD (code / 28 % 21) ""
        ++ HANGUL_TAILS.getD (code % 28) ""))
  else none

/-- Lookup in the `hangul_rom` cache (a `RefCell<HashMap<char, String>>`),
modeled as an association list keyed by codepoint. -/
def cacheLookup : List (Nat × String) → Nat → Option String
  | [], _ => none
  | (k, v) :: rest, cp => if k = cp then some v else cacheLookup rest cp

/-- `Uroman::unicode_hangul_romanization` with its cache: return the cached
romanization when present; otherwise compute, store, and return it. The cache
is the only state the function touches, so it is threaded explicitly. -/
def unicodeHangulRomanizationCached (cache : List (Nat × String)) (cp : Nat) :
    Option String × List (Nat × String) :=
  match cacheLookup cache cp with
  | some cachedRom => (some cachedRom, cache)
  | none =>
    if 0xAC00 ≤ cp ∧ cp ≤ 0xD7A3 then
      let code := cp - 0xAC00
      let rom := hangulStrip
        (HANGUL_LEADS.getD (code / (28 * 21)) "" ++ HANGUL_VOWELS.getD (code / 28 % 21) ""
          ++ HANGUL_TAILS.getD (code % 28) "")
      (some rom, (cp, rom) :: cache)
    else (none, cache)

/-- The claim's formula for the Hangul romanization: for `cp` in
`U+AC00..=U+D7A3`, with `code = cp - 0xAC00`, the concatenation of
`leads[code / 588]`, `vowels[(code / 28) % 21]` and `tails[code % 28]` with
every placeholder dash removed; `none` outside the range. -/
def hangulClaimRom (cp : Nat) : Option String :=
  if 0xAC00 ≤ cp ∧ cp ≤ 0xD7A3 then
    let code := cp - 0xAC00
    some (hangulStrip
      (HANGUL_LEADS.getD (code / 588) "" ++ HANGUL_VOWELS.getD (code / 28 % 21) ""
        ++ HANGUL_TAILS.getD (code % 28) ""))
  else none

/-- Every cache entry agrees with the computed romanization. Freshly
constructed stores have empty caches, and (as proved below) every insertion
preserves this invariant, so it holds of every reachable cache. -/
def hangulCacheOK (cache : List (Nat × String)) : Prop :=
  ∀ p ∈ cache, unicodeHangulRomanization p.1 = some p.2

/-! ## src/lib.rs: the rule store, add_rom_rule and the Thai rules -/

/-- Modelled from the spec: `rom_rule.rs` is not under the sources at hand.
Per spec section 3, a rule carries the source key `s`, the target
romanization `t`, optional left/right context predicates, allowed language
codes, a provenance tag, and the numeric flags that `add_rom_rule` consumes
(`is_minus_sign`, `is_plus_sign`, `fraction_connector`, `is_large_power`). -/
structure RomRule where
  s : String
  t : String
  prov : String
  lcodes : List String
  leftContext : Option String
  rightContext : Option String
  isMinusSign : Bool
  isPlusSign : Bool
  fractionConnector : Bool
  isLargePower : Bool
deriving DecidableEq, Repr

/-- `RomRule::new_simple(s, t, prov)`: a rule with no contexts, no language
restriction and no numeric flags (used for pinyin, Thai auto-cancel). -/
def RomRule.newSimple (s t prov : String) : RomRule :=
  { s := s, t := t, prov := prov, lcodes := [], leftContext := none, rightContext := none,
    isMinusSign := false, isPlusSign := false, fractionConnector := false,
    isLargePower := false }

/-- Modelled from the spec: `RomRule::is_unconditional` (in the missing
`rom_rule.rs`) holds when the rule has no left/right contexts and no language
restriction (spec section 3, "no contexts, no language restriction"). -/
def RomRule.isUnconditional (r : RomRule) : Bool :=
  r.lcodes.isEmpty && r.leftContext.isNone && r.rightContext.isNone

/-- The `Uroman` fields touched by `add_rom_rule`, `register_s_prefix` and
`add_thai_cancellation_rules`: the ordered rule store plus the sign/connector
sets and the boolean dictionary, all modeled as total functions with the
containers' default values. -/
structure UromanState where
  romRules : String → List RomRule
  minusSigns : String → Bool
  plusSigns : String → Bool
  fractionConnectors : String → Bool
  dictBool : String → String → Bool

/-- A store with no rules and empty sets (the state of the maps before any
load-time registration touches a given key). -/
def emptyUromanState : UromanState :=
  { romRules := fun _ => [], minusSigns := fun _ => false, plusSigns := fun _ => false,
    fractionConnectors := fun _ => false, dictBool := fun _ _ => false }

/-- The nonempty prefixes of `s` in increasing length, as accumulated by the
loop of `register_s_prefix`. -/
def stringPrefixList (s : String) : List String :=
  (List.range s.data.length).map (fun i => ⟨s.data.take (i + 1)⟩)

/-- `Uroman::register_s_prefix`: records `("s-prefix", prefix) → true` in
`dict_bool` for every nonempty prefix of `s`. -/
def registerSPrefixes (st : UromanState) (s : String) : UromanState :=
  (stringPrefixList s).foldl
    (fun st p =>
      { st with dictBool := fun k1 k2 => if k1 = "s-prefix" ∧ k2 = p then true else st.dictBool k1 k2 })
    st

/-- `Uroman::add_rom_rule` from src/lib.rs: record the numeric-flag sets,
register the key's prefixes, then either overwrite the existing rule list
with the singleton new rule (when it holds exactly one rule whose provenance
is `ud` or `ow` and the new rule is unconditional) or append the new rule. -/
def addRomRule (st : UromanState) (rule : RomRule) : UromanState :=
  let st := if rule.isMinusSign then
      { st with minusSigns := fun k => if k = rule.s then true else st.minusSigns k } else st
  let st := if rule.isPlusSign then
      { st with plusSigns := fun k => if k = rule.s then true else st.plusSigns k } else st
  let st := if rule.fractionConnector then
      { st with fractionConnectors := fun k => if k = rule.s then true else st.fractionConnectors k }
    else st
  let st := if rule.isLargePower then
      { st with dictBool := fun k1 k2 =>
          if k1 = "is-large-power" ∧ k2 = rule.s then true else st.dictBool k1 k2 } else st
  let st := registerSPrefixes st rule.s
  let oldRules := st.romRules rule.s
  let isUncond := rule.isUnconditional
  let shouldOverwrite := oldRules.length == 1 &&
    (match oldRules with
     | oldRule :: _ => (oldRule.prov == "ud" || oldRule.prov == "ow") && isUncond
     | [] => false)
  { st with romRules := fun k =>
      if k = rule.s then (if shouldOverwrite then [rule] else oldRules ++ [rule])
      else st.romRules k }

/-- One step of the loops in `Uroman::add_thai_cancellation_rules`: if the
rule list for `key` is empty, push `RomRule::new_simple(key, "", prov)` and
register the key's prefixes; otherwise leave the store unchanged. -/
def thaiAddIfEmpty (prov : String) (st : UromanState) (key : String) : UromanState :=
  let rules := st.romRules key
  if rules.isEmpty then
    registerSPrefixes
      { st with romRules := fun k =>
          if k = key then rules ++ [RomRule.newSimple key "" prov] else st.romRules k }
      key
  else st

/-- The keys of the first loop of `add_thai_cancellation_rules`: `C + U+0E4C`
for every codepoint `C` in `0x0E01..0x0E4C` (i.e. `U+0E01..=U+0E4B`;
`char::from_u32` succeeds on all of them). -/
def thaiLetterKeys : List String :=
  (List.range' 0x0E01 (0x0E4C - 0x0E01)).map
    (fun cp => ⟨[Char.ofNat cp, Char.ofNat 0x0E4C]⟩)

/-- `thai_consonants`: `0x0E01..0x0E2F`, i.e. `U+0E01..=U+0E2E`. -/
def thaiConsonantCps : List Nat := List.range' 0x0E01 (0x0E2F - 0x0E01)

/-- `thai_vowel_modifiers`: `{U+0E31, U+0E47}` chained with `0x0E33..=0x0E3B`. -/
def thaiVowelModifierCps : List Nat :=
  [0x0E31, 0x0E47] ++ List.range' 0x0E33 (0x0E3C - 0x0E33)

/-- The keys of the nested loops of `add_thai_cancellation_rules`, in loop
order (outer `c1` over the consonants, inner `v` over the modifiers):
`C + V + U+0E4C`. -/
def thaiSyllableKeys : List String :=
  thaiConsonantCps.flatMap (fun c =>
    thaiVowelModifierCps.map (fun v => ⟨[Char.ofNat c, Char.ofNat v, Char.ofNat 0x0E4C]⟩))

/-- `Uroman::add_thai_cancellation_rules` from src/lib.rs: the first loop
registers `auto cancel letter` rules for the letter keys, then the nested
loops (flattened here in their iteration order) register
`auto cancel syllable` rules for the syllable keys, each only when the key
has no rules yet. -/
def addThaiCancellationRules (st : UromanState) : UromanState :=
  let st1 := thaiLetterKeys.foldl (thaiAddIfEmpty "auto cancel letter") st
  thaiSyllableKeys.foldl (thaiAddIfEmpty "auto cancel syllable") st1

/-! ## The lattice and path selector, modelled from the spec

`lattice.rs` is not among the sources at hand; only its callers
(`Uroman::romanize_string`) and the spec (sections 4.3-4.8) describe it. The
definitions below are modelled from the spec and say so in their doc
comments. -/

/-- Modelled from the spec: the per-edge cost of section 4.8 (a lexicographic
tuple of provenance bucket, span penalty and tie-breaks) is kept abstract as
a `Nat`-valued function; the spec itself leaves the precise ordering open,
and the total-cover and determinism claims hold for every cost function. -/
abbrev EdgeCost := Edge → Nat

/-- Modelled from the spec (section 4.8): the edges the forward DP relaxes
from position `p` — edges starting at `p` that make progress and stay inside
`[lo, hi)`. -/
def stepCand (edges : List Edge) (hi p : Nat) : List Edge :=
  edges.filter (fun e => decide (e.start = p ∧ p < e.endPos ∧ e.endPos ≤ hi))

/-- Keep the better of the best-so-far and a new candidate; ties keep the
earlier candidate (spec: earlier-inserted beats later). -/
def pickBetter (acc : Option (Nat × List Edge)) (cand : Nat × List Edge) :
    Option (Nat × List Edge) :=
  match acc with
  | none => some cand
  | some best => if cand.1 < best.1 then some cand else some best

/-- Modelled from the spec (section 4.8): the Bellman recursion underlying
the forward DP of `best_rom_edge_path` — the minimum-cost edge path from
position `p` to `hi`, or `none` when no path exists. The fuel argument
(instantiated with `hi - lo`) makes the recursion structural; every relaxed
edge strictly increases the position, so the fuel never runs out on a
reachable position. -/
def bestFrom (cost : EdgeCost) (edges : List Edge) (hi : Nat) :
    Nat → Nat → Option (Nat × List Edge)
  | 0, p => if p = hi then some (0, []) else none
  | fuel + 1, p =>
    if p = hi then some (0, [])
    else
      (stepCand edges hi p).foldl
        (fun acc e =>
          match bestFrom cost edges hi fuel e.endPos with
          | none => acc
          | some cp => pickBetter acc (cost e + cp.1, e :: cp.2))
        none

/-- The relaxation step of the DP, named so the fold can be reasoned about. -/
def relaxStep (cost : EdgeCost) (edges : List Edge) (hi fuel : Nat)
    (acc : Option (Nat × List Edge)) (e : Edge) : Option (Nat × List Edge) :=
  match bestFrom cost edges hi fuel e.endPos with
  | none => acc
  | some cp => pickBetter acc (cost e + cp.1, e :: cp.2)

/-- Modelled from the spec (section 4.8): `Lattice::best_rom_edge_path(lo, hi)`
returns the minimum-cost chain of edges from `lo` to `hi`. -/
def bestRomEdgePath (cost : EdgeCost) (edges : List Edge) (lo hi : Nat) : List Edge :=
  match bestFrom cost edges hi (hi - lo) lo with
  | some cp => cp.2
  | none => []

/-- The path `path` partitions `[lo, hi)` exactly once: the first edge starts
at `lo`, each edge starts where the previous one ends, and the last edge ends
at `hi` (an empty path is a partition only of the empty interval). -/
def chainsFromB : Nat → List Edge → Nat → Bool
  | lo, [], hi => lo == hi
  | lo, e :: es, hi => (e.start == lo) && chainsFromB e.endPos es hi

/-- Modelled from the spec (section 4.6.6): `add_rom_fall_back_singles` adds,
for every position `i` with no outgoing edge yet, a single-character edge
`[i, i+1)` whose text is the character itself, or empty for format and
nonspacing-mark characters (`charTxtEmpty` stands for that Unicode-category
test, external data). -/
def addRomFallBackSingles (charTxtEmpty : Char → Bool) (input : List Char)
    (edges : List Edge) : List Edge :=
  edges ++ (List.range input.length).filterMap (fun i =>
    if edges.any (fun e => e.start == i) then none
    else
      let c := input.getD i ' '
      some (Edge.regular
        { start := i, endPos := i + 1,
          txt := if charTxtEmpty c then "" else ⟨[c]⟩, ty := "fallback" }))

/-- Modelled from the spec (section 4.6.1): the Hangul producer inside
`add_romanization` adds, for each character with a Hangul romanization, an
edge `[i, i+1)` carrying it; the memoized `unicode_hangul_romanization` cache
is threaded through. -/
def addHangulEdges : Nat → List Char → List (Nat × String) →
    List Edge × List (Nat × String)
  | _, [], cache => ([], cache)
  | i, c :: rest, cache =>
    match unicodeHangulRomanizationCached cache c.toNat with
    | (r, cache1) =>
      match addHangulEdges (i + 1) rest cache1 with
      | (es, cache2) =>
        (match r with
         | some rom => Edge.regular { start := i, endPos := i + 1, txt := rom, ty := "rom" } :: es
         | none => es,
         cache2)

/-- The cache-free value of the Hangul producer. -/
def addHangulEdgesPure : Nat → List Char → List Edge
  | _, [] => []
  | i, c :: rest =>
    match unicodeHangulRomanization c.toNat with
    | some rom =>
      Edge.regular { start := i, endPos := i + 1, txt := rom, ty := "rom" }
        :: addHangulEdgesPure (i + 1) rest
    | none => addHangulEdgesPure (i + 1) rest

/-- The two output formats of `romanize_string` whose result is exactly the
best path (`RomFormat::Str` and `RomFormat::Edges` in src/lib.rs). The `ALTS`
and `Lattice` variants additionally call `add_alternatives` / `all_edges` of
the missing `lattice.rs` and are not modelled. -/
inductive RomFormatPath where
  | str
  | edges
deriving DecidableEq, Repr

/-- `RomanizationResult` from src/lib.rs: a plain string or an edge list. -/
inductive RomanizationResult where
  | str (s : String)
  | edges (es : List Edge)
deriving DecidableEq, Repr

/-- Modelled from the spec and the body of `Uroman::romanize_string`
(src/lib.rs lines 711-754): build the lattice — the generator passes are the
pure `genPure` parameter (they depend on the rule store and the language
code, both folded into the parameter) plus the memoized Hangul producer —
then add the fallback singles and extract `best_rom_edge_path(0, N)`,
concatenating the edges' `txt` for `Str`. The Hangul cache (the only mutable
state of the call) is threaded and returned. -/
def romanizeStringStateful (cost : EdgeCost) (charTxtEmpty : Char → Bool)
    (genPure : List Char → List Edge) (input : List Char) (fmt : RomFormatPath)
    (cache : List (Nat × String)) : RomanizationResult × List (Nat × String) :=
  match addHangulEdges 0 input cache with
  | (hangulEdges, cache') =>
    let edges := addRomFallBackSingles charTxtEmpty input (genPure input ++ hangulEdges)
    match fmt with
    | .str =>
      (.str (String.join ((bestRomEdgePath cost edges 0 input.length).map Edge.txt)), cache')
    | .edges => (.edges (bestRomEdgePath cost edges 0 input.length), cache')

/-! ## Theorems -/

/-- Rebuilding a string from its character list is the identity. -/
theorem stringMkData (s : String) : (⟨s.data⟩ : String) = s := rfl

/-- C10: For every regular (non-numeric) edge, `is_active` returns `true`,
and both `set_active` (with either argument) and `update` leave the edge
unchanged; only numeric edges can be deactivated or mutated by these
operations. -/
theorem C10_regular_edges_inert (d : EdgeData) (b : Bool) (u : NumDataUpdates) :
    (Edge.regular d).isActive = true ∧ (Edge.regular d).setActive b = Edge.regular d ∧
      (Edge.regular d).update u = Edge.regular d :=
  ⟨rfl, rfl, rfl⟩

/-- C6: After any call to `Edge::update` on a numeric edge, the edge's `txt`
field equals the recomputation from its (updated) payload: `value_s` if
present, otherwise the formatted value, followed by the fraction when
present; an empty recomputed string falls back to `orig_txt`. -/
theorem C6_update_recomputes_txt (data : EdgeData) (nd : NumData) (u : NumDataUpdates) :
    ∃ data' nd', Edge.update (Edge.numeric data nd) u = Edge.numeric data' nd' ∧
      data'.txt = recomputedTxt nd' :=
  ⟨_, _, rfl, rfl⟩

/-- C7: Two edges are equal (per the `PartialEq` impl) iff their
`(start, end, txt, type)` quadruples agree, regardless of any numeric
payload, and the hash stream is a function of the same four fields, so equal
edges hash identically. -/
theorem C7_edge_eq_tuple_hash (e1 e2 : Edge) :
    (edgeEq e1 e2 = true ↔
      (e1.getData.start, e1.getData.endPos, e1.getData.txt, e1.getData.ty) =
        (e2.getData.start, e2.getData.endPos, e2.getData.txt, e2.getData.ty)) ∧
    (edgeEq e1 e2 = true → e1.hashStream = e2.hashStream) := by
  constructor
  · simp [edgeEq, Prod.ext_iff, and_assoc]
  · intro h
    simp only [edgeEq, Bool.and_eq_true, beq_iff_eq] at h
    simp [Edge.hashStream, h.1.1.1, h.1.1.2, h.1.2, h.2]

/-- Witness for C7: two numeric edges with the same quadruple but different
payloads (different `value`, `active`) are equal and hash identically. -/
theorem C7_edge_eq_tuple_hash_witness :
    edgeEq
        (Edge.numeric ⟨0, 1, "5", "D1"⟩ ⟨"五", some 5, none, none, none, none, false, true, none, none⟩)
        (Edge.numeric ⟨0, 1, "5", "D1"⟩ ⟨"五", some 6, none, none, none, none, false, false, none, none⟩)
      = true ∧
    (Edge.numeric ⟨0, 1, "5", "D1"⟩ ⟨"五", some 5, none, none, none, none, false, true, none, none⟩).hashStream =
      (Edge.numeric ⟨0, 1, "5", "D1"⟩ ⟨"五", some 6, none, none, none, none, false, false, none, none⟩).hashStream :=
  ⟨by decide,
   (C7_edge_eq_tuple_hash
       (Edge.numeric ⟨0, 1, "5", "D1"⟩ ⟨"五", some 5, none, none, none, none, false, true, none, none⟩)
       (Edge.numeric ⟨0, 1, "5", "D1"⟩ ⟨"五", some 6, none, none, none, none, false, false, none, none⟩)).2
     (by decide)⟩

/-- A hit in the hangul cache is an entry of the cache. -/
theorem cacheLookup_mem {cache : List (Nat × String)} {cp : Nat} {r : String}
    (h : cacheLookup cache cp = some r) : (cp, r) ∈ cache := by
  induction cache with
  | nil => simp [cacheLookup] at h
  | cons p rest ih =>
    match p with
    | (k, v) =>
      by_cases hk : k = cp
      · subst hk
        simp [cacheLookup] at h
        simp [h]
      · simp [cacheLookup, hk] at h
        exact List.mem_cons_of_mem _ (ih h)

/-- On a consistent cache, the cached Hangul romanization returns the value
of the pure function. -/
theorem hangulCached_fst {cache : List (Nat × String)} (cp : Nat)
    (h : hangulCacheOK cache) :
    (unicodeHangulRomanizationCached cache cp).1 = unicodeHangulRomanization cp := by
  unfold unicodeHangulRomanizationCached
  cases hc : cacheLookup cache cp with
  | some r =>
    have hmem := cacheLookup_mem hc
    have := h _ hmem
    simp at this
    simp [this]
  | none =>
    by_cases hin : 0xAC00 ≤ cp ∧ cp ≤ 0xD7A3
    · simp only [if_pos hin]
      unfold unicodeHangulRomanization
      rw [if_pos hin]
    · simp only [if_neg hin]
      unfold unicodeHangulRomanization
      rw [if_neg hin]

/-- Inserting a computed Hangul romanization preserves cache consistency. -/
theorem hangulCached_cacheOK {cache : List (Nat × String)} (cp : Nat)
    (h : hangulCacheOK cache) :
    hangulCacheOK (unicodeHangulRomanizationCached cache cp).2 := by
  unfold unicodeHangulRomanizationCached
  cases hc : cacheLookup cache cp with
  | some r => simpa using h
  | none =>
    by_cases hin : 0xAC00 ≤ cp ∧ cp ≤ 0xD7A3
    · simp only [if_pos hin]
      intro p hp
      rcases List.mem_cons.mp hp with hp | hp
      · subst hp
        unfold unicodeHangulRomanization
        rw [if_pos hin]
      · exact h _ hp
    · simp only [if_neg hin]
      exact h

/-- C5: The Hangul romanization is exactly the claim's table formula — for a
codepoint in `U+AC00..=U+D7A3`, the concatenation of `leads[code / 588]`,
`vowels[(code / 28) % 21]`, `tails[code % 28]` with placeholder dashes
removed, and `none` outside the range — both for the pure computation and for
the cached function on any consistent cache; in particular 가 ↦ "ga",
한 ↦ "han", 글 ↦ "geul". -/
theorem C5_hangul_romanization :
    (∀ cp, unicodeHangulRomanization cp = hangulClaimRom cp) ∧
    (∀ cache cp, hangulCacheOK cache →
      (unicodeHangulRomanizationCached cache cp).1 = hangulClaimRom cp) ∧
    unicodeHangulRomanization ('가'.toNat) = some "ga" ∧
    unicodeHangulRomanization ('한'.toNat) = some "han" ∧
    unicodeHangulRomanization ('글'.toNat) = some "geul" ∧
    (∀ cp, cp < 0xAC00 ∨ 0xD7A3 < cp → unicodeHangulRomanization cp = none) := by
  refine ⟨fun cp => rfl, fun cache cp h => (hangulCached_fst cp h).trans rfl,
    by decide, by decide, by decide, fun cp h => ?_⟩
  unfold unicodeHangulRomanization
  rw [if_neg]
  omega

/-- Witness for C5: the cached conjunct applied to the empty cache (trivially
consistent) at 가, and the out-of-range conjunct applied at `U+D7A4`. -/
theorem C5_hangul_romanization_witness :
    (unicodeHangulRomanizationCached [] ('가'.toNat)).1 = hangulClaimRom ('가'.toNat) ∧
    unicodeHangulRomanization 0xD7A4 = none :=
  ⟨C5_hangul_romanization.2.1 [] ('가'.toNat) (fun p hp => absurd hp (List.not_mem_nil p)),
   C5_hangul_romanization.2.2.2.2.2 0xD7A4 (Or.inr (by decide))⟩

/-- C8 (amended): `second_rom_filter` behaves exactly as the claim describes
once the source's ASCII-space guard is added — for nonempty `c`, a `rom`
containing an ASCII space is rewritten by the KAYAH capture, else the MENDE
capture, else replaced by `c` when it has embedded whitespace between
nonspace characters; in every other case (including any `rom` without an
ASCII space) `rom` is returned unchanged. -/
theorem C8_second_rom_filter (chrName : Char → String) (c : String) (rom : Option String) :
    secondRomFilter chrName c rom = secondRomFilterClaim chrName c rom := by
  unfold secondRomFilter secondRomFilterClaim
  cases hc : c.data with
  | nil => cases rom <;> rfl
  | cons ch rest =>
    cases rom with
    | none => rfl
    | some r =>
      by_cases hs : r.data.contains ' '
      · simp [hs]
      · simp [hs]

/-- Counterexample for C8 as stated: `U+E000` has no Unicode name (private
use), the candidate `"a\tb"` has embedded whitespace between two nonspace
characters (a tab), so the claim predicts the result `c`; the source returns
the candidate unchanged because it only rewrites when `rom` contains an ASCII
space. -/
theorem C8_second_rom_filter_counterexample :
    secondRomFilter (fun _ => "") "" (some "a\tb") = some "a\tb" ∧
    spaceReMatch "a\tb" = true ∧
    strContainsSubstr "" "MYANMAR VOWEL SIGN KAYAH" = false ∧
    strContainsSubstr "" "MENDE KIKAKUI SYLLABLE" = false ∧
    some "a\tb" ≠ (some "" : Option String) := by
  refine ⟨by decide, by decide, by decide, by decide, by decide⟩

/-- Each step of the escape scan renders exactly the leftmost tokenization:
the loop of `decode_unicode_escapes` equals the claim's per-segment
replacement. -/
theorem decodeScanF_renders (fuel : Nat) :
    ∀ cs, decodeScanF fuel cs = ((escSegmentsF fuel cs).map renderSegClaim).flatten := by
  induction fuel with
  | zero =>
    intro cs
    induction cs with
    | nil => rfl
    | cons c rest ih => simpa [decodeScanF, escSegmentsF, renderSegClaim] using ih
  | succ fuel ih =>
    intro cs
    cases cs with
    | nil => rfl
    | cons c rest =>
      cases hp : parseEscapeHead (c :: rest) with
      | some vn => simp [decodeScanF, escSegmentsF, hp, renderSegClaim, ih]
      | none => simp [decodeScanF, escSegmentsF, hp, renderSegClaim, ih]

/-- When the escape regex has no match anywhere, the scan is the identity. -/
theorem decodeScanF_noMatch :
    ∀ (fuel : Nat) (cs : List Char), hasEscapeMatch cs = false → decodeScanF fuel cs = cs := by
  intro fuel
  induction fuel with
  | zero => intro cs _; rfl
  | succ fuel ih =>
    intro cs h
    cases cs with
    | nil => rfl
    | cons c rest =>
      have h1 : parseEscapeHead (c :: rest) = none := by
        cases hpp : parseEscapeHead (c :: rest) with
        | none => rfl
        | some vn => simp [hasEscapeMatch, hpp] at h
      have h2 : hasEscapeMatch rest = false := by
        simp [hasEscapeMatch, h1] at h
        exact h
      simp [decodeScanF, h1, ih rest h2]

/-- C9: `decode_unicode_escapes` performs exactly the claim's transformation:
every `\xHH`, `\uHHHH`, `\UHHHHHHHH` escape with value strictly greater than
`0x80` is replaced by the corresponding character (U+FFFD for non-scalar
values), every escape with value at most `0x80` — such as the ASCII `\x41` —
is kept verbatim, and a string with no such escape is returned unchanged. -/
theorem C9_decode_unicode_escapes :
    (∀ s : String, hasEscapeMatch s.data = false → decodeUnicodeEscapes s = s) ∧
    (∀ s : String, decodeUnicodeEscapes s = decodeClaim s) ∧
    decodeUnicodeEscapes "\\x41" = "\\x41" ∧
    decodeUnicodeEscapes "\\u00e9" = "é" ∧
    decodeUnicodeEscapes "\\x80" = "\\x80" ∧
    decodeUnicodeEscapes "\\x81" = "\u0081" ∧
    decodeUnicodeEscapes "\\uD800" = "�" := by
  refine ⟨fun s h => ?_, fun s => ?_, by decide, by decide, by decide, by decide, by decide⟩
  · unfold decodeUnicodeEscapes
    rw [h]
    rfl
  · unfold decodeUnicodeEscapes decodeClaim
    by_cases h : hasEscapeMatch s.data
    · rw [if_pos h, decodeScanF_renders]
    · have hf : hasEscapeMatch s.data = false := by simpa using h
      rw [if_neg h, ← decodeScanF_renders, decodeScanF_noMatch _ _ hf]

/-- Witness for C9: `"abc"` has no escape and is returned unchanged. -/
theorem C9_decode_unicode_escapes_witness :
    hasEscapeMatch "abc".data = false ∧ decodeUnicodeEscapes "abc" = "abc" :=
  ⟨by decide, C9_decode_unicode_escapes.1 "abc" (by decide)⟩

/-- `register_s_prefix` only writes `dict_bool`; the rule store is
untouched. -/
theorem registerSPrefixes_romRules (st : UromanState) (s : String) :
    (registerSPrefixes st s).romRules = st.romRules := by
  unfold registerSPrefixes
  generalize stringPrefixList s = l
  induction l generalizing st with
  | nil => rfl
  | cons p l ih => rw [List.foldl_cons]; exact ih _

/-- One Thai-cancellation step changes the rule list only at its own key, and
only when that key has no rules. -/
theorem thaiAddIfEmpty_romRules (prov : String) (st : UromanState) (key k : String) :
    (thaiAddIfEmpty prov st key).romRules k =
      if k = key ∧ st.romRules k = [] then [RomRule.newSimple k "" prov]
      else st.romRules k := by
  unfold thaiAddIfEmpty
  by_cases he : (st.romRules key).isEmpty
  · rw [if_pos he, registerSPrefixes_romRules]
    by_cases hk : k = key
    · subst hk
      rw [List.isEmpty_iff] at he
      simp [he]
    · simp [hk]
  · rw [if_neg he]
    rw [List.isEmpty_iff] at he
    by_cases hk : k = key
    · subst hk
      simp [he]
    · simp [hk]

/-- Folding the add-if-empty step over a list of keys installs exactly one
`new_simple` rule at each listed key that had none, and changes nothing
else. -/
theorem thaiFold_romRules (prov : String) (keys : List String) :
    ∀ (st : UromanState) (k : String),
      (keys.foldl (thaiAddIfEmpty prov) st).romRules k =
        if k ∈ keys ∧ st.romRules k = [] then [RomRule.newSimple k "" prov]
        else st.romRules k := by
  induction keys with
  | nil => intro st k; simp
  | cons x keys ih =>
    intro st k
    rw [List.foldl_cons, ih, thaiAddIfEmpty_romRules]
    by_cases hk : k = x
    · subst hk
      by_cases hst : st.romRules k = []
      · simp [hst]
      · simp [hst]
    · by_cases hm : k ∈ keys
      · simp [hk, hm]
      · simp [hk, hm, List.mem_cons]

/-- Lookup characterization of `add_thai_cancellation_rules`: a key gets the
`auto cancel letter` rule iff it is a letter key with no prior rules, else
the `auto cancel syllable` rule iff it is a syllable key with no prior rules,
else its rule list is unchanged. -/
theorem thaiCancellation_romRules (st : UromanState) (k : String) :
    (addThaiCancellationRules st).romRules k =
      if k ∈ thaiLetterKeys ∧ st.romRules k = [] then
        [RomRule.newSimple k "" "auto cancel letter"]
      else if k ∈ thaiSyllableKeys ∧ st.romRules k = [] then
        [RomRule.newSimple k "" "auto cancel syllable"]
      else st.romRules k := by
  unfold addThaiCancellationRules
  rw [thaiFold_romRules, thaiFold_romRules]
  by_cases h1 : k ∈ thaiLetterKeys ∧ st.romRules k = []
  · simp [h1]
  · simp [h1]

/-- C3 (amended): after `add_thai_cancellation_rules`, and for any prior
store contents, the auto-cancel rules are exactly: `C + THANTHAKHAT → ""`
with provenance `auto cancel letter` for every codepoint `C` in
`U+0E01..=U+0E4B` (not only the consonants `U+0E01..=U+0E2E`), and
`C + V + THANTHAKHAT → ""` with provenance `auto cancel syllable` for every
consonant `C` in `U+0E01..=U+0E2E` and modifier `V` in
`{U+0E31, U+0E47} ∪ U+0E33..=U+0E3B` (including `U+0E3B`); each rule is added
only when the key has no rules yet, and no other key is touched. -/
theorem C3_thai_cancellation_rules (st : UromanState) (k : String) :
    (addThaiCancellationRules st).romRules k =
      if k ∈ thaiLetterKeys ∧ st.romRules k = [] then
        [RomRule.newSimple k "" "auto cancel letter"]
      else if k ∈ thaiSyllableKeys ∧ st.romRules k = [] then
        [RomRule.newSimple k "" "auto cancel syllable"]
      else st.romRules k :=
  thaiCancellation_romRules st k

/-- Counterexample to C3 as stated: starting from an empty store, the key
`U+0E2F U+0E4C` receives an `auto cancel letter` rule although `U+0E2F` is
outside the claimed consonant range `U+0E01..=U+0E2E`, and the key
`U+0E01 U+0E3B U+0E4C` receives an `auto cancel syllable` rule although
`U+0E3B` is outside the claimed modifier set (which stops at `U+0E3A`). -/
theorem C3_thai_cancellation_counterexample :
    (addThaiCancellationRules emptyUromanState).romRules
        (⟨[Char.ofNat 0x0E2F, Char.ofNat 0x0E4C]⟩ : String) =
      [RomRule.newSimple (⟨[Char.ofNat 0x0E2F, Char.ofNat 0x0E4C]⟩ : String) ""
        "auto cancel letter"] ∧
    ¬ (0x0E2F ≤ 0x0E2E) ∧
    (addThaiCancellationRules emptyUromanState).romRules
        (⟨[Char.ofNat 0x0E01, Char.ofNat 0x0E3B, Char.ofNat 0x0E4C]⟩ : String) =
      [RomRule.newSimple (⟨[Char.ofNat 0x0E01, Char.ofNat 0x0E3B, Char.ofNat 0x0E4C]⟩ : String)
        "" "auto cancel syllable"] ∧
    ¬ (0x0E3B ≤ 0x0E3A) := by
  refine ⟨?_, by decide, ?_, by decide⟩
  · rw [thaiCancellation_romRules]
    decide
  · rw [thaiCancellation_romRules]
    decide

/-- C4 (amended): `add_rom_rule` replaces the existing rule list for the new
rule's key by the singleton new rule if and only if the list holds exactly
one rule, that rule's provenance is `ud` or `ow`, and the *new* rule is
unconditional; the existing rule's own contexts and language restrictions are
not examined. In every other case the new rule is appended at the end, and no
other key's list changes. -/
theorem C4_add_rom_rule_replacement (st : UromanState) (rule : RomRule) (k : String) :
    (addRomRule st rule).romRules k =
      if k = rule.s then
        (if (st.romRules rule.s).length = 1 ∧
            (∀ o ∈ st.romRules rule.s, o.prov = "ud" ∨ o.prov = "ow") ∧
            rule.isUnconditional = true
         then [rule] else st.romRules rule.s ++ [rule])
      else st.romRules k := by
  unfold addRomRule
  by_cases h1 : rule.isMinusSign <;> by_cases h2 : rule.isPlusSign <;>
    by_cases h3 : rule.fractionConnector <;> by_cases h4 : rule.isLargePower <;>
    simp only [h1, h2, h3, h4, if_true, if_false, Bool.false_eq_true] <;>
    rw [registerSPrefixes_romRules] <;>
    · by_cases hk : k = rule.s
      · subst hk
        simp only [if_pos rfl]
        rcases hr : st.romRules rule.s with _ | ⟨o, _ | ⟨o2, rest⟩⟩
        · simp
        · by_cases hu : rule.isUnconditional
          · by_cases hp : o.prov = "ud" ∨ o.prov = "ow"
            · have hb : (o.prov == "ud" || o.prov == "ow") = true := by
                rcases hp with hp | hp <;> simp [hp]
              simp [hb, hu, hp]
            · have hb : (o.prov == "ud" || o.prov == "ow") = false := by
                rcases not_or.mp hp with ⟨hpa, hpb⟩
                simp [hpa, hpb]
              simp [hb, hp]
          · have hu2 : rule.isUnconditional = false := by simpa using hu
            simp [hu2]
        · simp
      · simp [hk]

/-- Counterexample to C4 as stated: the store holds exactly one rule for
`"K"` with provenance `ud` that is *not* unconditional (it has a left
context); adding an unconditional rule nonetheless *replaces* it — the claim
requires the existing rule to be unconditional for replacement, but the
source only inspects the new rule. -/
theorem C4_add_rom_rule_counterexample :
    (addRomRule
        { emptyUromanState with
            romRules := fun key =>
              if key = "K" then
                [{ s := "K", t := "old", prov := "ud", lcodes := [],
                   leftContext := some "L", rightContext := none, isMinusSign := false,
                   isPlusSign := false, fractionConnector := false, isLargePower := false }]
              else [] }
        (RomRule.newSimple "K" "new" "man")).romRules "K" =
      [RomRule.newSimple "K" "new" "man"] ∧
    RomRule.isUnconditional
        { s := "K", t := "old", prov := "ud", lcodes := [],
          leftContext := some "L", rightContext := none, isMinusSign := false,
          isPlusSign := false, fractionConnector := false, isLargePower := false } = false :=
  ⟨by decide, by decide⟩

@[simp]
theorem Edge.start_regular (d : EdgeData) : (Edge.regular d).start = d.start := rfl

@[simp]
theorem Edge.endPos_regular (d : EdgeData) : (Edge.regular d).endPos = d.endPos := rfl

@[simp]
theorem Edge.txt_regular (d : EdgeData) : (Edge.regular d).txt = d.txt := rfl

/-- Unfolding the successor case of the DP in terms of the named relaxation
step. -/
theorem bestFrom_succ (cost : EdgeCost) (edges : List Edge) (hi fuel p : Nat) :
    bestFrom cost edges hi (fuel + 1) p =
      if p = hi then some (0, [])
      else (stepCand edges hi p).foldl (relaxStep cost edges hi fuel) none := rfl

/-- Folding the relaxation step preserves the invariant that any produced
path chains from `p` to `hi`, provided every folded edge starts at `p`, stays
in range, and recursive results chain from their own start. -/
theorem relaxFold_chains (cost : EdgeCost) (edges : List Edge) (hi fuel p : Nat)
    (ih : ∀ q c path, bestFrom cost edges hi fuel q = some (c, path) →
      chainsFromB q path hi = true) :
    ∀ (l : List Edge), (∀ e ∈ l, e.start = p ∧ p < e.endPos ∧ e.endPos ≤ hi) →
      ∀ (acc : Option (Nat × List Edge)),
        (∀ c path, acc = some (c, path) → chainsFromB p path hi = true) →
        ∀ c path, l.foldl (relaxStep cost edges hi fuel) acc = some (c, path) →
          chainsFromB p path hi = true := by
  intro l
  induction l with
  | nil => intro _ acc hacc c path h; exact hacc c path h
  | cons e l ihl =>
    intro hl acc hacc c path h
    rw [List.foldl_cons] at h
    refine ihl (fun e2 he2 => hl e2 (List.mem_cons_of_mem _ he2)) _ ?_ c path h
    intro c2 path2 hstep
    rcases hb : bestFrom cost edges hi fuel e.endPos with _ | cp
    · simp only [relaxStep, hb] at hstep
      exact hacc c2 path2 hstep
    · simp only [relaxStep, hb] at hstep
      have he := hl e (List.mem_cons_self e l)
      have hchain : chainsFromB p (e :: cp.2) hi = true := by
        have hrec := ih e.endPos cp.1 cp.2 (by rw [hb])
        simp [chainsFromB, he.1, hrec]
      have hcases : (c2, path2) = (cost e + cp.1, e :: cp.2) ∨ acc = some (c2, path2) := by
        rcases acc with _ | best
        · left
          simp only [pickBetter] at hstep
          exact (Option.some.inj hstep).symm
        · simp only [pickBetter] at hstep
          by_cases hlt : cost e + cp.1 < best.1
          · rw [if_pos hlt] at hstep
            left
            exact (Option.some.inj hstep).symm
          · rw [if_neg hlt] at hstep
            right
            exact hstep
      rcases hcases with hc2 | hc2
      · have hpath : path2 = e :: cp.2 := congrArg Prod.snd hc2
        rw [hpath]
        exact hchain
      · exact hacc c2 path2 hc2

/-- The relaxation step maps a `some` accumulator to a `some` result. -/
theorem relaxStep_isSome (cost : EdgeCost) (edges : List Edge) (hi fuel : Nat)
    (acc : Option (Nat × List Edge)) (e : Edge) (h : acc.isSome) :
    (relaxStep cost edges hi fuel acc e).isSome := by
  rcases hb : bestFrom cost edges hi fuel e.endPos with _ | cp
  · simp only [relaxStep, hb]
    exact h
  · simp only [relaxStep, hb]
    rcases acc with _ | best
    · simp [pickBetter]
    · simp only [pickBetter]
      split <;> simp

/-- A fold of the relaxation step starting from a `some` accumulator is
`some`. -/
theorem relaxFold_isSome_of_acc (cost : EdgeCost) (edges : List Edge) (hi fuel : Nat) :
    ∀ (l : List Edge) (acc : Option (Nat × List Edge)), acc.isSome →
      (l.foldl (relaxStep cost edges hi fuel) acc).isSome := by
  intro l
  induction l with
  | nil => intro acc h; exact h
  | cons e l ihl =>
    intro acc h
    rw [List.foldl_cons]
    exact ihl _ (relaxStep_isSome cost edges hi fuel acc e h)

/-- If some folded edge has a `some` recursive result, the fold is `some`. -/
theorem relaxFold_isSome (cost : EdgeCost) (edges : List Edge) (hi fuel : Nat) :
    ∀ (l : List Edge) (acc : Option (Nat × List Edge)),
      (∃ e ∈ l, (bestFrom cost edges hi fuel e.endPos).isSome) →
      (l.foldl (relaxStep cost edges hi fuel) acc).isSome := by
  intro l
  induction l with
  | nil =>
    intro acc h
    rcases h with ⟨e, he, _⟩
    exact absurd he (List.not_mem_nil e)
  | cons e l ihl =>
    intro acc h
    rw [List.foldl_cons]
    rcases h with ⟨e2, he2, hs⟩
    rcases List.mem_cons.mp he2 with rfl | he2
    · apply relaxFold_isSome_of_acc
      rcases hb : bestFrom cost edges hi fuel e2.endPos with _ | cp
      · rw [hb] at hs
        simp at hs
      · simp only [relaxStep, hb]
        rcases acc with _ | best
        · simp [pickBetter]
        · simp only [pickBetter]
          split <;> simp
    · exact ihl _ ⟨e2, he2, hs⟩

/-- Soundness of the DP: any returned path chains from its start position to
`hi` — the partition property of the selected edge sequence. -/
theorem bestFrom_chains (cost : EdgeCost) (edges : List Edge) (hi : Nat) :
    ∀ fuel p c path, bestFrom cost edges hi fuel p = some (c, path) →
      chainsFromB p path hi = true := by
  intro fuel
  induction fuel with
  | zero =>
    intro p c path h
    unfold bestFrom at h
    by_cases hp : p = hi
    · rw [if_pos hp] at h
      have : path = [] := by simpa using (congrArg (Option.map Prod.snd) h.symm)
      rw [this]
      simp [chainsFromB, hp]
    · rw [if_neg hp] at h
      exact absurd h (by simp)
  | succ fuel ih =>
    intro p c path h
    rw [bestFrom_succ] at h
    by_cases hp : p = hi
    · rw [if_pos hp] at h
      have : path = [] := by simpa using (congrArg (Option.map Prod.snd) h.symm)
      rw [this]
      simp [chainsFromB, hp]
    · rw [if_neg hp] at h
      refine relaxFold_chains cost edges hi fuel p ih (stepCand edges hi p) ?_ none ?_ c path h
      · intro e he
        have hm := List.mem_filter.mp he
        exact of_decide_eq_true hm.2
      · intro c2 path2 hcontra
        exact absurd hcontra (by simp)

/-- Completeness of the DP: when every position below `hi` has an in-range
outgoing edge, the DP finds a path from any position `p ≤ hi` given enough
fuel. -/
theorem bestFrom_isSome (cost : EdgeCost) (edges : List Edge) (hi : Nat)
    (hcov : ∀ i, i < hi → ∃ e ∈ edges, e.start = i ∧ i < e.endPos ∧ e.endPos ≤ hi) :
    ∀ fuel p, p ≤ hi → hi - p ≤ fuel → (bestFrom cost edges hi fuel p).isSome := by
  intro fuel
  induction fuel with
  | zero =>
    intro p hple hfuel
    have hp : p = hi := by omega
    unfold bestFrom
    simp [hp]
  | succ fuel ih =>
    intro p hple hfuel
    rw [bestFrom_succ]
    by_cases hp : p = hi
    · simp [hp]
    · rw [if_neg hp]
      have hplt : p < hi := by omega
      rcases hcov p hplt with ⟨e, hmem, hstart, hlt, hle⟩
      apply relaxFold_isSome
      refine ⟨e, ?_, ih e.endPos hle (by omega)⟩
      exact List.mem_filter.mpr ⟨hmem, decide_eq_true ⟨hstart, hlt, hle⟩⟩

/-- After `add_rom_fall_back_singles`, every position of the input has an
outgoing edge that stays inside `[0, N)` — the total-cover guarantee,
provided the generator edges are well-formed (`start < end ≤ N`, the data
model invariant of the spec). -/
theorem fallback_covers (charTxtEmpty : Char → Bool) (input : List Char) (base : List Edge)
    (hwf : ∀ e ∈ base, e.start < e.endPos ∧ e.endPos ≤ input.length) :
    ∀ i, i < input.length →
      ∃ e ∈ addRomFallBackSingles charTxtEmpty input base,
        e.start = i ∧ i < e.endPos ∧ e.endPos ≤ input.length := by
  intro i hi
  by_cases h : base.any (fun e => e.start == i)
  · rcases List.any_eq_true.mp h with ⟨e, hmem, heq⟩
    have hstart : e.start = i := by simpa using heq
    refine ⟨e, List.mem_append_left _ hmem, hstart, ?_, (hwf e hmem).2⟩
    have := (hwf e hmem).1
    omega
  · have hfalse : base.any (fun e => e.start == i) = false := by simpa using h
    refine ⟨Edge.regular
        { start := i, endPos := i + 1,
          txt := if charTxtEmpty (input.getD i ' ') then "" else ⟨[input.getD i ' ']⟩,
          ty := "fallback" },
      ?_, by simp, by simp, by simp; omega⟩
    apply List.mem_append_right
    apply List.mem_filterMap.mpr
    refine ⟨i, List.mem_range.mpr hi, ?_⟩
    rw [if_neg]
    simp [hfalse]

/-- Every edge the Hangul producer emits spans exactly one character of the
input, within range. -/
theorem addHangulEdges_wf :
    ∀ (i : Nat) (cs : List Char) (cache : List (Nat × String)) (e : Edge),
      e ∈ (addHangulEdges i cs cache).1 →
      i ≤ e.start ∧ e.start < e.endPos ∧ e.endPos ≤ i + cs.length := by
  intro i cs
  induction cs generalizing i with
  | nil => intro cache e he; simp [addHangulEdges] at he
  | cons c rest ih =>
    intro cache e he
    unfold addHangulEdges at he
    rcases hc : unicodeHangulRomanizationCached cache c.toNat with ⟨r, cache1⟩
    rw [hc] at he
    dsimp only at he
    rcases hrec : addHangulEdges (i + 1) rest cache1 with ⟨es, cache2⟩
    rw [hrec] at he
    rcases r with _ | rom
    · dsimp only at he
      have hb := ih (i + 1) cache1 e (by rw [hrec]; exact he)
      simp only [List.length_cons]
      omega
    · dsimp only at he
      rcases List.mem_cons.mp he with rfl | he2
      · simp only [Edge.start_regular, Edge.endPos_regular, List.length_cons]
        omega
      · have hb := ih (i + 1) cache1 e (by rw [hrec]; exact he2)
        simp only [List.length_cons]
        omega

/-- On a consistent cache the Hangul producer emits the cache-free edge list,
and its resulting cache is again consistent. -/
theorem addHangulEdges_pure :
    ∀ (i : Nat) (cs : List Char) (cache : List (Nat × String)), hangulCacheOK cache →
      (addHangulEdges i cs cache).1 = addHangulEdgesPure i cs ∧
        hangulCacheOK (addHangulEdges i cs cache).2 := by
  intro i cs
  induction cs generalizing i with
  | nil => intro cache h; exact ⟨rfl, h⟩
  | cons c rest ih =>
    intro cache h
    unfold addHangulEdges addHangulEdgesPure
    rcases hc : unicodeHangulRomanizationCached cache c.toNat with ⟨r, cache1⟩
    dsimp only
    have hr : r = unicodeHangulRomanization c.toNat := by
      have hh := hangulCached_fst c.toNat h
      rw [hc] at hh
      exact hh
    have hok1 : hangulCacheOK cache1 := by
      have hh := hangulCached_cacheOK c.toNat h
      rw [hc] at hh
      exact hh
    rcases hrec : addHangulEdges (i + 1) rest cache1 with ⟨es, cache2⟩
    have ihh := ih (i + 1) cache1 hok1
    rw [hrec] at ihh
    dsimp only at ihh
    rw [← hr]
    rcases r with _ | rom
    · dsimp only
      exact ihh
    · dsimp only
      exact ⟨by rw [ihh.1], ihh.2⟩

/-- C1: For every input, generator output (well-formed per the data model
invariant `start < end ≤ N`), cost function and cache, the best path
extracted by `romanize_string` partitions `[0, N)` exactly once — the first
edge starts at 0, consecutive edges chain, the last edge ends at `N` — and
the `Str` result is exactly the concatenation of the chosen edges' `txt`
while the `Edges` result is exactly that path. -/
theorem C1_total_cover (cost : EdgeCost) (charTxtEmpty : Char → Bool)
    (genPure : List Char → List Edge) (input : List Char) (cache : List (Nat × String))
    (hwf : ∀ e ∈ genPure input, e.start < e.endPos ∧ e.endPos ≤ input.length) :
    chainsFromB 0
        (bestRomEdgePath cost
          (addRomFallBackSingles charTxtEmpty input
            (genPure input ++ (addHangulEdges 0 input cache).1))
          0 input.length)
        input.length = true ∧
    (romanizeStringStateful cost charTxtEmpty genPure input .str cache).1 =
      RomanizationResult.str (String.join ((bestRomEdgePath cost
        (addRomFallBackSingles charTxtEmpty input
          (genPure input ++ (addHangulEdges 0 input cache).1))
        0 input.length).map Edge.txt)) ∧
    (romanizeStringStateful cost charTxtEmpty genPure input .edges cache).1 =
      RomanizationResult.edges (bestRomEdgePath cost
        (addRomFallBackSingles charTxtEmpty input
          (genPure input ++ (addHangulEdges 0 input cache).1))
        0 input.length) := by
  rcases hh : addHangulEdges 0 input cache with ⟨hE, cacheE⟩
  dsimp only
  have hwf2 : ∀ e ∈ genPure input ++ hE, e.start < e.endPos ∧ e.endPos ≤ input.length := by
    intro e he
    rcases List.mem_append.mp he with he | he
    · exact hwf e he
    · have hb := addHangulEdges_wf 0 input cache e (by rw [hh]; exact he)
      refine ⟨hb.2.1, ?_⟩
      have hb2 := hb.2.2
      omega
  have hcov := fallback_covers charTxtEmpty input _ hwf2
  have hsome := bestFrom_isSome cost
    (addRomFallBackSingles charTxtEmpty input (genPure input ++ hE)) input.length hcov
    input.length 0 (by omega) (by omega)
  refine ⟨?_, ?_, ?_⟩
  · unfold bestRomEdgePath
    rw [Nat.sub_zero]
    rcases hb : bestFrom cost
        (addRomFallBackSingles charTxtEmpty input (genPure input ++ hE)) input.length
        input.length 0 with _ | cp
    · rw [hb] at hsome
      simp at hsome
    · dsimp only
      exact bestFrom_chains cost _ input.length input.length 0 cp.1 cp.2 hb
  · unfold romanizeStringStateful
    rw [hh]
  · unfold romanizeStringStateful
    rw [hh]

/-- Witness for C1: a concrete two-character input with one generator edge
spanning it. -/
theorem C1_total_cover_witness :
    chainsFromB 0
        (bestRomEdgePath (fun _ => 0)
          (addRomFallBackSingles (fun _ => false) ['x', 'y']
            ([Edge.regular ⟨0, 2, "ab", "man"⟩] ++ (addHangulEdges 0 ['x', 'y'] []).1))
          0 (['x', 'y'] : List Char).length)
        (['x', 'y'] : List Char).length = true :=
  (C1_total_cover (fun _ => 0) (fun _ => false) (fun _ => [Edge.regular ⟨0, 2, "ab", "man"⟩])
    ['x', 'y'] [] (by decide)).1

/-- A romanize call leaves the Hangul cache consistent. -/
theorem romanizeStateful_cacheOK (cost : EdgeCost) (charTxtEmpty : Char → Bool)
    (genPure : List Char → List Edge) (input : List Char) (fmt : RomFormatPath)
    (cache : List (Nat × String)) (h : hangulCacheOK cache) :
    hangulCacheOK (romanizeStringStateful cost charTxtEmpty genPure input fmt cache).2 := by
  unfold romanizeStringStateful
  rcases hh : addHangulEdges 0 input cache with ⟨hE, cacheE⟩
  have hp := addHangulEdges_pure 0 input cache h
  rw [hh] at hp
  cases fmt <;> dsimp only <;> exact hp.2

/-- The result of a romanize call does not depend on which consistent Hangul
cache it starts from. -/
theorem romanizeStateful_cache_irrelevant (cost : EdgeCost) (charTxtEmpty : Char → Bool)
    (genPure : List Char → List Edge) (input : List Char) (fmt : RomFormatPath)
    (cache1 cache2 : List (Nat × String)) (h1 : hangulCacheOK cache1)
    (h2 : hangulCacheOK cache2) :
    (romanizeStringStateful cost charTxtEmpty genPure input fmt cache1).1 =
      (romanizeStringStateful cost charTxtEmpty genPure input fmt cache2).1 := by
  unfold romanizeStringStateful
  rcases hh1 : addHangulEdges 0 input cache1 with ⟨hE1, cE1⟩
  rcases hh2 : addHangulEdges 0 input cache2 with ⟨hE2, cE2⟩
  have hp1 := addHangulEdges_pure 0 input cache1 h1
  have hp2 := addHangulEdges_pure 0 input cache2 h2
  rw [hh1] at hp1
  rw [hh2] at hp2
  have he : hE1 = hE2 := by
    have e1 : hE1 = addHangulEdgesPure 0 input := hp1.1
    have e2 : hE2 = addHangulEdgesPure 0 input := hp2.1
    rw [e1, e2]
  cases fmt <;> dsimp only <;> rw [he]

/-- C2: romanization is a deterministic pure function of its inputs — a
second call to `romanize_string` with the same input, language code
(folded into the generator), and format, on the store state left by the
first call (the Hangul memo cache is the only per-store mutable state the
call touches), returns a result identical to the first call's; and the
cache stays consistent, so this extends to any number of repetitions. -/
theorem C2_romanize_string_deterministic (cost : EdgeCost) (charTxtEmpty : Char → Bool)
    (genPure : List Char → List Edge) (input : List Char) (fmt : RomFormatPath)
    (cache : List (Nat × String)) (hc : hangulCacheOK cache) :
    (romanizeStringStateful cost charTxtEmpty genPure input fmt
        (romanizeStringStateful cost charTxtEmpty genPure input fmt cache).2).1 =
      (romanizeStringStateful cost charTxtEmpty genPure input fmt cache).1 ∧
    hangulCacheOK (romanizeStringStateful cost charTxtEmpty genPure input fmt cache).2 :=
  ⟨romanizeStateful_cache_irrelevant cost charTxtEmpty genPure input fmt _ _
      (romanizeStateful_cacheOK cost charTxtEmpty genPure input fmt cache hc) hc,
    romanizeStateful_cacheOK cost charTxtEmpty genPure input fmt cache hc⟩

/-- Witness for C2: two successive calls on the Hangul input 가 starting from
the empty (trivially consistent) cache give identical results. -/
theorem C2_romanize_string_deterministic_witness :
    (romanizeStringStateful (fun _ => 0) (fun _ => false) (fun _ => []) ['가'] .str
        (romanizeStringStateful (fun _ => 0) (fun _ => false) (fun _ => []) ['가'] .str []).2).1 =
      (romanizeStringStateful (fun _ => 0) (fun _ => false) (fun _ => []) ['가'] .str []).1 ∧
    hangulCacheOK
      (romanizeStringStateful (fun _ => 0) (fun _ => false) (fun _ => []) ['가'] .str []).2 :=
  C2_romanize_string_deterministic (fun _ => 0) (fun _ => false) (fun _ => []) ['가'] .str []
    (fun p hp => absurd hp (List.not_mem_nil p))
